import Mathlib

/-!
Verification of the distributed graph-partitioning data-shuffle engine
(`tools/distpartitioning/data_shuffle.py`).

The Python functions are shallowly embedded as pure Lean functions:
machine integers become `Nat` (all quantities involved are non-negative
counts, ids and byte sizes), numpy arrays become `List`s, the per-rank
dictionaries become explicit parameters, and the collective transport
(`allgather_sizes`, `alltoallv_cpu`, from `gloo_wrapper`, not part of the
sources under verification) is modelled from the spec: an all-gather
returns the concatenation of the per-rank vectors in rank order, and an
all-to-all delivers to each receiver one buffer per sender, concatenated
in sender-rank order, tolerating empty buffers.

The distributed lookup service (`DistLookupService.get_partition_ids`) is
modelled from the spec as an abstract assignment `part : Nat → Nat`
mapping a global node id to its partition id: the spec guarantees the
answer is unique, stable, and independent of the querier.
-/

namespace DataShuffle

/-- Ceiling division the way the Python source spells it:
`a // b + (0 if a % b == 0 else 1)`. -/
def cdiv (a b : Nat) : Nat := a / b + (if a % b = 0 then 0 else 1)

/-- Ceiling division the way the spec spells it, `⌈a / b⌉`. -/
def ceilNat (a b : Nat) : Nat := (a + b - 1) / b

/-- Bytes per mebibyte; `MB = 1024 * 1024` in `_get_num_chunks`. -/
def MB : Nat := 1024 * 1024

/-- Row cap per edge-shuffle chunk; `CHUNK_SIZE = 100 * 1000 * 1000` in
`exchange_edge_data`. -/
def CHUNK_SIZE : Nat := 100 * 1000 * 1000

/-- Sum of `f j` for `j = 0, 1, ..., n-1`. -/
def sumOver (n : Nat) (f : Nat → Nat) : Nat := ((List.range n).map f).sum

theorem sumOver_zero (f : Nat → Nat) : sumOver 0 f = 0 := rfl

theorem sumOver_succ (n : Nat) (f : Nat → Nat) :
    sumOver (n + 1) f = sumOver n f + f n := by
  simp [sumOver, List.range_succ]

theorem sumOver_congr {n : Nat} {f g : Nat → Nat} (h : ∀ j, j < n → f j = g j) :
    sumOver n f = sumOver n g := by
  unfold sumOver
  induction n with
  | zero => rfl
  | succ m ih =>
    rw [List.range_succ]
    simp only [List.map_append, List.sum_append, List.map_cons, List.map_nil]
    rw [ih (fun j hj => h j (Nat.lt_succ_of_lt hj)), h m (Nat.lt_succ_self m)]

theorem sumOver_add_distrib (n : Nat) (f g : Nat → Nat) :
    sumOver n (fun j => f j + g j) = sumOver n f + sumOver n g := by
  induction n with
  | zero => rfl
  | succ m ih => rw [sumOver_succ, sumOver_succ, sumOver_succ, ih]; omega

theorem sumOver_shift (m n : Nat) (f : Nat → Nat) :
    sumOver (m + n) f = sumOver m f + sumOver n (fun j => f (m + j)) := by
  induction n with
  | zero => simp [sumOver_zero]
  | succ p ih =>
    rw [← Nat.add_assoc, sumOver_succ, sumOver_succ, ih]
    omega

theorem sumOver_const_zero (n : Nat) : sumOver n (fun _ => 0) = 0 := by
  induction n with
  | zero => rfl
  | succ p ih => rw [sumOver_succ, ih]

theorem sumOver_comm (m n : Nat) (f : Nat → Nat → Nat) :
    sumOver m (fun i => sumOver n (fun j => f i j)) =
      sumOver n (fun j => sumOver m (fun i => f i j)) := by
  induction m with
  | zero =>
    simp only [sumOver_zero]
    rw [sumOver_const_zero]
  | succ p ih =>
    rw [sumOver_succ, ih, ← sumOver_add_distrib]
    apply sumOver_congr
    intro j _
    rw [sumOver_succ]

theorem sumOver_indicator (x n : Nat) :
    sumOver n (fun j => if x = j then 1 else 0) = if x < n then 1 else 0 := by
  induction n with
  | zero => simp [sumOver_zero]
  | succ m ih =>
    rw [sumOver_succ, ih]
    by_cases hx : x = m
    · subst hx
      simp [Nat.lt_irrefl, Nat.lt_succ_self]
    · by_cases hlt : x < m
      · simp [hx, hlt, Nat.lt_succ_of_lt hlt]
      · have : ¬ x < m + 1 := by omega
        simp [hx, hlt, this]

theorem sumOver_block (k W : Nat) (g : Nat → Nat) :
    sumOver k (fun lp => sumOver W (fun r => g (lp * W + r))) = sumOver (k * W) g := by
  induction k with
  | zero => simp [sumOver_zero]
  | succ p ih =>
    rw [sumOver_succ, ih, Nat.succ_mul, sumOver_shift]

theorem sumOver_double_indicator (x W k : Nat) :
    sumOver W (fun r => sumOver k (fun lp => if x = r + lp * W then 1 else 0)) =
      if x < W * k then 1 else 0 := by
  rw [sumOver_comm]
  have hb :
      sumOver k (fun lp => sumOver W (fun r => if x = r + lp * W then 1 else 0)) =
        sumOver (k * W) (fun j => if x = j then 1 else 0) := by
    rw [← sumOver_block k W (fun j => if x = j then 1 else 0)]
    apply sumOver_congr
    intro lp _
    apply sumOver_congr
    intro r _
    simp [Nat.add_comm]
  rw [hb, sumOver_indicator, Nat.mul_comm k W]

/-- Counting rows routed to each (receiver, local-partition) bucket: if every
row's partition id lies below `W * k`, the buckets partition the rows. -/
theorem sum_bucket {α : Type} (l : List α) (pd : α → Nat) (W k : Nat)
    (h : ∀ a ∈ l, pd a < W * k) :
    sumOver W (fun r => sumOver k (fun lp => l.countP (fun a => pd a == r + lp * W))) =
      l.length := by
  induction l with
  | nil => simp [sumOver, List.countP_nil]
  | cons a t ih =>
    have ha : pd a < W * k := h a (List.mem_cons_self a t)
    have ht : ∀ b ∈ t, pd b < W * k := fun b hb => h b (List.mem_cons_of_mem a hb)
    have hcnt : ∀ r lp : Nat,
        (a :: t).countP (fun b => pd b == r + lp * W) =
          t.countP (fun b => pd b == r + lp * W) + (if pd a = r + lp * W then 1 else 0) := by
      intro r lp
      rw [List.countP_cons]
      by_cases hpa : pd a = r + lp * W
      · simp [hpa]
      · simp [hpa]
    have hsplit :
        sumOver W (fun r => sumOver k (fun lp => (a :: t).countP (fun b => pd b == r + lp * W))) =
          sumOver W (fun r => sumOver k (fun lp => t.countP (fun b => pd b == r + lp * W))) +
            sumOver W (fun r => sumOver k (fun lp => if pd a = r + lp * W then 1 else 0)) := by
      rw [← sumOver_add_distrib]
      apply sumOver_congr
      intro r _
      rw [← sumOver_add_distrib]
      apply sumOver_congr
      intro lp _
      exact hcnt r lp
    rw [hsplit, ih ht, sumOver_double_indicator, if_pos ha, List.length_cons]

/-- Python `a[c*L : (c+1)*L]` slicing used by both chunk loops. -/
def chunkSlice {α : Type} (l : List α) (L c : Nat) : List α := (l.drop (c * L)).take L

theorem chunkSlice_join_take {α : Type} (l : List α) (L : Nat) :
    ∀ k, (List.range k).flatMap (fun c => chunkSlice l L c) = l.take (k * L) := by
  intro k
  induction k with
  | zero => simp
  | succ p ih =>
    rw [List.range_succ, List.flatMap_append, ih]
    simp only [List.flatMap_cons, List.flatMap_nil, List.append_nil]
    rw [Nat.succ_mul, List.take_add]
    rfl

/-- The chunk loop covers the whole local array exactly once as soon as
`k * L` reaches its length. -/
theorem chunkSlice_join {α : Type} (l : List α) (L k : Nat) (h : l.length ≤ k * L) :
    (List.range k).flatMap (fun c => chunkSlice l L c) = l := by
  rw [chunkSlice_join_take, List.take_of_length_le h]

theorem cdiv_pos (n c : Nat) (hn : 0 < n) (hc : c ≤ n) : 0 < cdiv n c := by
  unfold cdiv
  by_cases h : n % c = 0
  · rw [if_pos h]
    rcases Nat.eq_zero_or_pos c with hc0 | hc1
    · subst hc0
      rw [Nat.mod_zero] at h
      omega
    · have := Nat.div_pos hc hc1
      omega
  · rw [if_neg h]
    exact Nat.succ_pos _

theorem cdiv_mul_le (n c : Nat) (hc : 0 < c) : n ≤ c * cdiv n c := by
  unfold cdiv
  have hmod := Nat.div_add_mod n c
  by_cases h : n % c = 0
  · rw [if_pos h, Nat.add_zero]
    omega
  · rw [if_neg h]
    have hlt : n % c < c := Nat.mod_lt _ hc
    have hexp : c * (n / c + 1) = c * (n / c) + c := Nat.mul_succ c (n / c)
    omega

theorem cdiv_eq_ceilNat (a b : Nat) (hb : 0 < b) : cdiv a b = ceilNat a b := by
  unfold cdiv ceilNat
  have hmod := Nat.div_add_mod a b
  have hlt : a % b < b := Nat.mod_lt _ hb
  by_cases h : a % b = 0
  · rw [if_pos h]
    have ha : a + b - 1 = b * (a / b) + (b - 1) := by omega
    rw [ha, Nat.mul_add_div hb, Nat.div_eq_of_lt (by omega : b - 1 < b)]
  · rw [if_neg h]
    have ha : a + b - 1 = b * (a / b) + (a % b - 1 + b) := by omega
    rw [ha, Nat.mul_add_div hb, Nat.add_div_right _ hb,
      Nat.div_eq_of_lt (by omega : a % b - 1 < b)]

/-- One edge record: the five parallel columns of `edge_data`
(`global_src_id, global_dst_id, global_type_eid, etype_id, global_eid`)
packed per edge, as `np.column_stack` does in `exchange_edge_data`. -/
structure Edge where
  src : Nat
  dst : Nat
  typeEid : Nat
  etypeId : Nat
  eid : Nat
deriving DecidableEq

/-- Number of edge-exchange chunks computed by `exchange_edge_data`:
`num_chunks = (max_edges // CHUNK_SIZE) + (0 if max_edges % CHUNK_SIZE == 0 else 1)`. -/
def edgeNumChunks (maxEdges : Nat) : Nat := cdiv maxEdges CHUNK_SIZE

/-- Per-worker chunk length computed by `exchange_edge_data`:
`LOCAL_CHUNK_SIZE = (num_edges // num_chunks) + (0 if num_edges % num_chunks == 0 else 1)`. -/
def localChunkSize (numEdges numChunks : Nat) : Nat := cdiv numEdges numChunks

/-- Largest per-worker edge count, `max_edges = np.amax(all_counts)` where
`all_counts` is the all-gather of the local edge counts. -/
def maxEdgeCount (W : Nat) (edges : Nat → List Edge) : Nat :=
  (((List.range W).map (fun s => (edges s).length)).foldr max 0)

/-- Edges that worker `s` routes to worker `idx` for local partition `lp` out
of chunk `c`: the `send_idx = owner_ids == (idx + local_part_id * world_size)`
filter of `exchange_edge_data`, applied to the chunk slice. -/
def sentEdges (part : Nat → Nat) (W lp idx : Nat) (edges : List Edge) (L c : Nat) :
    List Edge :=
  (chunkSlice edges L c).filter (fun e => part e.dst == idx + lp * W)

/-- Edge columns worker `r` stores under local partition `lp` after
`exchange_edge_data`.  The all-to-all is modelled from the spec: each receiver
obtains one buffer per sender, concatenated in sender-rank order
(`torch.cat(output_list)`), and the per-chunk results are appended
(`np.concatenate(local_src_ids)` and friends). -/
def recvEdges (W : Nat) (edges : Nat → List Edge) (part : Nat → Nat) (r lp : Nat) :
    List Edge :=
  let nchunks := edgeNumChunks (maxEdgeCount W edges)
  (List.range nchunks).flatMap (fun c =>
    (List.range W).flatMap (fun s =>
      sentEdges part W lp r (edges s) (localChunkSize (edges s).length nchunks) c))

/-- Pre-shuffle edge total, `all_edges = np.sum(all_counts)`. -/
def allEdgesTotal (W : Nat) (edges : Nat → List Edge) : Nat :=
  sumOver W (fun s => (edges s).length)

/-- Post-shuffle edge total gathered by the conservation check at the end of
`exchange_edge_data`: each worker sums its per-local-partition row counts and
the all-gathered counts are summed (`shuffle_edge_total`). -/
def shuffleEdgeTotal (W k : Nat) (edges : Nat → List Edge) (part : Nat → Nat) : Nat :=
  sumOver W (fun r => sumOver k (fun lp => (recvEdges W edges part r lp).length))

/-- The final `assert shuffle_edge_total == all_edges` of `exchange_edge_data`. -/
def edgeConservationCheck (W k : Nat) (edges : Nat → List Edge) (part : Nat → Nat) :
    Bool :=
  shuffleEdgeTotal W k edges part == allEdgesTotal W edges

/-- C2.  After the edge-data shuffle, every edge record held by worker `r`
under local partition `lp` has the partition of its destination node equal to
`r + lp * W` — destination ownership decides routing, so the partition of the
destination of any edge on worker `r` lies in `{r, r + W, r + 2W, ...}`. -/
theorem C2_edge_ownership (W : Nat) (edges : Nat → List Edge) (part : Nat → Nat)
    (r lp : Nat) (e : Edge) (he : e ∈ recvEdges W edges part r lp) :
    part e.dst = r + lp * W := by
  unfold recvEdges at he
  simp only [List.mem_flatMap] at he
  obtain ⟨c, _, s, _, hmem⟩ := he
  unfold sentEdges at hmem
  have := (List.mem_filter.mp hmem).2
  exact beq_iff_eq.mp this

/-- C2 witness: a concrete two-worker, two-partition exchange. -/
theorem C2_edge_ownership_witness :
    (⟨4, 3, 0, 0, 7⟩ : Edge) ∈
        recvEdges 2
          (fun s => [[⟨4, 3, 0, 0, 7⟩, ⟨1, 2, 1, 0, 8⟩], [⟨3, 3, 2, 0, 9⟩]].getD s [])
          (fun d => d % 2) 1 0 ∧
      (fun d => d % 2) (3 : Nat) = 1 + 0 * 2 :=
  ⟨by decide,
    C2_edge_ownership 2
      (fun s => [[⟨4, 3, 0, 0, 7⟩, ⟨1, 2, 1, 0, 8⟩], [⟨3, 3, 2, 0, 9⟩]].getD s [])
      (fun d => d % 2) 1 0 ⟨4, 3, 0, 0, 7⟩ (by decide)⟩

theorem recvEdges_length (W : Nat) (edges : Nat → List Edge) (part : Nat → Nat)
    (r lp : Nat) :
    (recvEdges W edges part r lp).length =
      sumOver (edgeNumChunks (maxEdgeCount W edges)) (fun c =>
        sumOver W (fun s =>
          (sentEdges part W lp r (edges s)
            (localChunkSize (edges s).length (edgeNumChunks (maxEdgeCount W edges))) c).length)) := by
  unfold recvEdges sumOver
  rw [List.length_flatMap]
  congr 1
  apply List.map_congr_left
  intro c _
  simp only [Function.comp_apply]
  rw [List.length_flatMap]
  congr 1

/-- Every chunk slice of a worker's edge list is made of that worker's edges. -/
theorem chunkSlice_subset {α : Type} (l : List α) (L c : Nat) :
    ∀ a ∈ chunkSlice l L c, a ∈ l := by
  intro a ha
  exact (l.drop_subset (c * L)) ((List.take_subset _ _) ha)

/-- Chunk lengths of one worker sum back to its edge count once the chunk
count and per-chunk length cover the list. -/
theorem chunkSlice_length_sum {α : Type} (l : List α) (L k : Nat)
    (h : l.length ≤ k * L) :
    sumOver k (fun c => (chunkSlice l L c).length) = l.length := by
  have hj := chunkSlice_join l L k h
  have := congrArg List.length hj
  rw [List.length_flatMap] at this
  exact this

/-- C3.  Conservation of edges: given that every destination partition id is
valid (below `W * k`, `k = P / W` local partitions per worker) and at least one
worker holds an edge (so the Python chunk arithmetic is well defined), the sum
over the cluster of post-shuffle edge counts equals the pre-shuffle total, so
the `assert shuffle_edge_total == all_edges` at the end of
`exchange_edge_data` succeeds. -/
theorem C3_edge_conservation (W k : Nat) (edges : Nat → List Edge)
    (part : Nat → Nat)
    (hvalid : ∀ s, s < W → ∀ e ∈ edges s, part e.dst < W * k)
    (hmax : 0 < maxEdgeCount W edges) :
    shuffleEdgeTotal W k edges part = allEdgesTotal W edges ∧
      edgeConservationCheck W k edges part = true := by
  have hchunks : 0 < edgeNumChunks (maxEdgeCount W edges) := by
    unfold edgeNumChunks CHUNK_SIZE
    by_cases hle : 100 * 1000 * 1000 ≤ maxEdgeCount W edges
    · exact cdiv_pos _ _ hmax hle
    · unfold cdiv
      have hne : ¬ maxEdgeCount W edges % (100 * 1000 * 1000) = 0 := by
        rw [Nat.mod_eq_of_lt (by omega)]
        omega
      rw [if_neg hne]
      exact Nat.succ_pos _
  set nchunks := edgeNumChunks (maxEdgeCount W edges) with hnchunks
  have hmain : shuffleEdgeTotal W k edges part = allEdgesTotal W edges := by
    unfold shuffleEdgeTotal
    calc
      sumOver W (fun r => sumOver k (fun lp => (recvEdges W edges part r lp).length)) =
          sumOver W (fun r => sumOver k (fun lp =>
            sumOver nchunks (fun c => sumOver W (fun s =>
              (sentEdges part W lp r (edges s)
                (localChunkSize (edges s).length nchunks) c).length)))) := by
            apply sumOver_congr
            intro r _
            apply sumOver_congr
            intro lp _
            exact recvEdges_length W edges part r lp
      _ = sumOver W (fun r => sumOver nchunks (fun c => sumOver k (fun lp =>
            sumOver W (fun s =>
              (sentEdges part W lp r (edges s)
                (localChunkSize (edges s).length nchunks) c).length)))) := by
            apply sumOver_congr
            intro r _
            exact sumOver_comm k nchunks _
      _ = sumOver nchunks (fun c => sumOver W (fun r => sumOver k (fun lp =>
            sumOver W (fun s =>
              (sentEdges part W lp r (edges s)
                (localChunkSize (edges s).length nchunks) c).length)))) := by
            exact sumOver_comm W nchunks _
      _ = sumOver nchunks (fun c => sumOver W (fun r => sumOver W (fun s =>
            sumOver k (fun lp =>
              (sentEdges part W lp r (edges s)
                (localChunkSize (edges s).length nchunks) c).length)))) := by
            apply sumOver_congr
            intro c _
            apply sumOver_congr
            intro r _
            exact sumOver_comm k W _
      _ = sumOver nchunks (fun c => sumOver W (fun s => sumOver W (fun r =>
            sumOver k (fun lp =>
              (sentEdges part W lp r (edges s)
                (localChunkSize (edges s).length nchunks) c).length)))) := by
            apply sumOver_congr
            intro c _
            exact sumOver_comm W W _
      _ = sumOver nchunks (fun c => sumOver W (fun s =>
            (chunkSlice (edges s) (localChunkSize (edges s).length nchunks) c).length)) := by
            apply sumOver_congr
            intro c _
            apply sumOver_congr
            intro s hs
            have hsub : ∀ e ∈ chunkSlice (edges s) (localChunkSize (edges s).length nchunks) c,
                part e.dst < W * k := by
              intro e hee
              exact hvalid s hs e (chunkSlice_subset _ _ _ e hee)
            have hb := sum_bucket
              (chunkSlice (edges s) (localChunkSize (edges s).length nchunks) c)
              (fun e => part e.dst) W k hsub
            rw [← hb]
            apply sumOver_congr
            intro r _
            apply sumOver_congr
            intro lp _
            unfold sentEdges
            rw [List.countP_eq_length_filter]
      _ = sumOver W (fun s => sumOver nchunks (fun c =>
            (chunkSlice (edges s) (localChunkSize (edges s).length nchunks) c).length)) := by
            exact sumOver_comm nchunks W _
      _ = sumOver W (fun s => (edges s).length) := by
            apply sumOver_congr
            intro s _
            apply chunkSlice_length_sum
            calc (edges s).length ≤
                nchunks * cdiv (edges s).length nchunks :=
                  cdiv_mul_le _ _ hchunks
              _ = nchunks * localChunkSize (edges s).length nchunks := rfl
  refine ⟨hmain, ?_⟩
  unfold edgeConservationCheck
  rw [hmain]
  exact beq_self_eq_true _

/-- C3 witness: two workers, two partitions, three edges, all destination
partition ids valid; the conservation check succeeds. -/
theorem C3_edge_conservation_witness :
    (∀ s, s < 2 →
        ∀ e ∈ (fun t => [[⟨4, 3, 0, 0, 7⟩, ⟨1, 2, 1, 0, 8⟩],
            [(⟨3, 3, 2, 0, 9⟩ : Edge)]].getD t []) s,
          (fun d => d % 2) e.dst < 2 * 1) ∧
      0 < maxEdgeCount 2 (fun t => [[⟨4, 3, 0, 0, 7⟩, ⟨1, 2, 1, 0, 8⟩],
        [(⟨3, 3, 2, 0, 9⟩ : Edge)]].getD t []) ∧
      edgeConservationCheck 2 1 (fun t => [[⟨4, 3, 0, 0, 7⟩, ⟨1, 2, 1, 0, 8⟩],
        [(⟨3, 3, 2, 0, 9⟩ : Edge)]].getD t []) (fun d => d % 2) = true :=
  ⟨by decide, by decide,
    (C3_edge_conservation 2 1
      (fun t => [[⟨4, 3, 0, 0, 7⟩, ⟨1, 2, 1, 0, 8⟩], [(⟨3, 3, 2, 0, 9⟩ : Edge)]].getD t [])
      (fun d => d % 2) (by decide) (by decide)).2⟩

/-- C7.  Edge-shuffle chunk arithmetic: the number of exchange chunks equals
`⌈max_edges / CHUNK_SIZE⌉`, each worker's local chunk length equals the
ceiling of its local edge count divided by that chunk count, and the chunk
slices taken by the loop cover the worker's local edge list exactly once. -/
theorem C7_edge_chunking (l : List Edge) (m : Nat) (hm : 0 < m)
    (hlen : l.length ≤ m) :
    edgeNumChunks m = ceilNat m CHUNK_SIZE ∧
      localChunkSize l.length (edgeNumChunks m) =
        ceilNat l.length (edgeNumChunks m) ∧
      (List.range (edgeNumChunks m)).flatMap
          (fun c => chunkSlice l (localChunkSize l.length (edgeNumChunks m)) c) = l := by
  have hC : 0 < CHUNK_SIZE := by
    unfold CHUNK_SIZE
    omega
  have hchunks : 0 < edgeNumChunks m := by
    unfold edgeNumChunks
    by_cases hle : CHUNK_SIZE ≤ m
    · exact cdiv_pos _ _ hm hle
    · unfold cdiv
      have hne : ¬ m % CHUNK_SIZE = 0 := by
        rw [Nat.mod_eq_of_lt (by omega)]
        omega
      rw [if_neg hne]
      exact Nat.succ_pos _
  refine ⟨cdiv_eq_ceilNat m CHUNK_SIZE hC, cdiv_eq_ceilNat _ _ hchunks, ?_⟩
  apply chunkSlice_join
  exact cdiv_mul_le _ _ hchunks

/-- C7 witness: a three-edge worker with cluster maximum five. -/
theorem C7_edge_chunking_witness :
    (0 < 5 ∧ ([⟨0, 1, 0, 0, 0⟩, ⟨2, 3, 1, 0, 1⟩, ⟨4, 5, 2, 0, 2⟩] : List Edge).length ≤ 5) ∧
      edgeNumChunks 5 = ceilNat 5 CHUNK_SIZE ∧
        localChunkSize ([⟨0, 1, 0, 0, 0⟩, ⟨2, 3, 1, 0, 1⟩,
            ⟨4, 5, 2, 0, 2⟩] : List Edge).length (edgeNumChunks 5) =
          ceilNat ([⟨0, 1, 0, 0, 0⟩, ⟨2, 3, 1, 0, 1⟩,
            ⟨4, 5, 2, 0, 2⟩] : List Edge).length (edgeNumChunks 5) ∧
        (List.range (edgeNumChunks 5)).flatMap
            (fun c => chunkSlice ([⟨0, 1, 0, 0, 0⟩, ⟨2, 3, 1, 0, 1⟩, ⟨4, 5, 2, 0, 2⟩] : List Edge)
              (localChunkSize 3 (edgeNumChunks 5)) c) =
          [⟨0, 1, 0, 0, 0⟩, ⟨2, 3, 1, 0, 1⟩, ⟨4, 5, 2, 0, 2⟩] :=
  ⟨⟨by decide, by decide⟩,
    C7_edge_chunking [⟨0, 1, 0, 0, 0⟩, ⟨2, 3, 1, 0, 1⟩, ⟨4, 5, 2, 0, 2⟩] 5
      (by decide) (by decide)⟩

/-- One node type as `gen_node_data` sees it: its `ntype_id`, the first
global node id of the type (`gnid_start`), the first per-type id
(`type_start`) and the node count (`gnid_end - gnid_start`), all obtained
from `get_idranges` over the schema. -/
structure NodeTypeInfo where
  ntypeId : Nat
  gnidStart : Nat
  typeStart : Nat
  count : Nat
deriving DecidableEq

/-- One synthesized node record, the triple of columns appended per type by
`gen_node_data` (`global_nid`, `global_type_nid`, `ntype_id`). -/
structure NodeRecord where
  gnid : Nat
  typeNid : Nat
  ntypeId : Nat
deriving DecidableEq

/-- Node records synthesized by `gen_node_data` on worker `r` for local
partition `lp`: for each node type, the worker queries the partition ids of
the whole global-nid range of the type (`id_lookup.get_partition_ids` on
`np.arange(gnid_start, gnid_end)`, modelled from the spec as the abstract
assignment `part`), keeps the indices whose partition id equals
`rank + local_part_id * world_size`, and emits the corresponding
`(global_nid, type_nid, ntype_id)` triples. -/
def genNodeData (W : Nat) (types : List NodeTypeInfo) (part : Nat → Nat)
    (r lp : Nat) : List NodeRecord :=
  types.flatMap (fun t =>
    ((List.range t.count).filter (fun i => part (t.gnidStart + i) == r + lp * W)).map
      (fun i => ⟨t.gnidStart + i, t.typeStart + i, t.ntypeId⟩))

/-- Total number of synthesized node records across the cluster. -/
def nodeShuffleTotal (W k : Nat) (types : List NodeTypeInfo)
    (part : Nat → Nat) : Nat :=
  sumOver W (fun r => sumOver k (fun lp => (genNodeData W types part r lp).length))

theorem genNodeData_ownership (W : Nat) (types : List NodeTypeInfo)
    (part : Nat → Nat) (r lp : Nat) :
    ∀ rec ∈ genNodeData W types part r lp, part rec.gnid = r + lp * W := by
  intro rec hrec
  unfold genNodeData at hrec
  rw [List.mem_flatMap] at hrec
  obtain ⟨t, _, hmem⟩ := hrec
  rw [List.mem_map] at hmem
  obtain ⟨i, hi, hform⟩ := hmem
  have hcond := (List.mem_filter.mp hi).2
  rw [← hform]
  exact beq_iff_eq.mp hcond

theorem genNodeData_count (W k : Nat) (types : List NodeTypeInfo)
    (part : Nat → Nat)
    (hvalid : ∀ t ∈ types, ∀ i, i < t.count → part (t.gnidStart + i) < W * k) :
    nodeShuffleTotal W k types part = (types.map (fun t => t.count)).sum := by
  unfold nodeShuffleTotal
  induction types with
  | nil =>
    simp only [List.map_nil, List.sum_nil]
    rw [← sumOver_const_zero W]
    apply sumOver_congr
    intro r _
    rw [← sumOver_const_zero k]
    apply sumOver_congr
    intro lp _
    rfl
  | cons t ts ih =>
    have hvt : ∀ i, i < t.count → part (t.gnidStart + i) < W * k :=
      fun i hi => hvalid t (List.mem_cons_self t ts) i hi
    have hvts : ∀ u ∈ ts, ∀ i, i < u.count → part (u.gnidStart + i) < W * k :=
      fun u hu i hi => hvalid u (List.mem_cons_of_mem t hu) i hi
    have hsplit : ∀ r lp : Nat,
        (genNodeData W (t :: ts) part r lp).length =
          ((List.range t.count).countP (fun i => part (t.gnidStart + i) == r + lp * W)) +
            (genNodeData W ts part r lp).length := by
      intro r lp
      unfold genNodeData
      rw [List.flatMap_cons, List.length_append, List.length_map,
        List.countP_eq_length_filter]
    calc
      sumOver W (fun r => sumOver k (fun lp => (genNodeData W (t :: ts) part r lp).length)) =
          sumOver W (fun r => sumOver k (fun lp =>
            ((List.range t.count).countP (fun i => part (t.gnidStart + i) == r + lp * W)) +
              (genNodeData W ts part r lp).length)) := by
            apply sumOver_congr
            intro r _
            apply sumOver_congr
            intro lp _
            exact hsplit r lp
      _ = sumOver W (fun r => sumOver k (fun lp =>
            (List.range t.count).countP (fun i => part (t.gnidStart + i) == r + lp * W))) +
          sumOver W (fun r => sumOver k (fun lp => (genNodeData W ts part r lp).length)) := by
            rw [← sumOver_add_distrib]
            apply sumOver_congr
            intro r _
            rw [← sumOver_add_distrib]
      _ = t.count + (ts.map (fun u => u.count)).sum := by
            rw [ih hvts]
            congr 1
            have hb := sum_bucket (List.range t.count)
              (fun i => part (t.gnidStart + i)) W k
              (fun i hi => hvt i (List.mem_range.mp hi))
            rw [hb, List.length_range]
      _ = ((t :: ts).map (fun u => u.count)).sum := by
            rw [List.map_cons, List.sum_cons]

/-- C5.  Node synthesis reads no node files: every record emitted by worker
`r` for local partition `lp` has its partition id equal to `r + lp * W`
(so a node appears on at most one `(worker, local partition)` pair with
`r < W`); conversely every index of a type range whose partition id equals
`r + lp * W` is emitted there; and when every partition id is valid the
cluster-wide node counts sum to the total node count of the graph. -/
theorem C5_node_synthesis (W k : Nat) (types : List NodeTypeInfo)
    (part : Nat → Nat)
    (hvalid : ∀ t ∈ types, ∀ i, i < t.count → part (t.gnidStart + i) < W * k) :
    (∀ r lp : Nat, ∀ rec ∈ genNodeData W types part r lp,
        part rec.gnid = r + lp * W) ∧
      (∀ r lp : Nat, ∀ t ∈ types, ∀ i, i < t.count →
        part (t.gnidStart + i) = r + lp * W →
          (⟨t.gnidStart + i, t.typeStart + i, t.ntypeId⟩ : NodeRecord) ∈
            genNodeData W types part r lp) ∧
      (∀ r lp rr llp : Nat, r < W → rr < W →
        ∀ rec ∈ genNodeData W types part r lp,
          rec ∈ genNodeData W types part rr llp → r = rr ∧ lp = llp) ∧
      nodeShuffleTotal W k types part = (types.map (fun t => t.count)).sum := by
  refine ⟨genNodeData_ownership W types part, ?_, ?_, genNodeData_count W k types part hvalid⟩
  · intro r lp t ht i hi hpi
    unfold genNodeData
    rw [List.mem_flatMap]
    refine ⟨t, ht, ?_⟩
    rw [List.mem_map]
    refine ⟨i, ?_, rfl⟩
    rw [List.mem_filter]
    exact ⟨List.mem_range.mpr hi, beq_iff_eq.mpr hpi⟩
  · intro r lp rr llp hr hrr rec h1 h2
    have e1 := genNodeData_ownership W types part r lp rec h1
    have e2 := genNodeData_ownership W types part rr llp rec h2
    have heq : r + lp * W = rr + llp * W := by rw [← e1, ← e2]
    constructor
    · have h1W : r = (r + lp * W) % W := by
        rw [Nat.add_mul_mod_self_right, Nat.mod_eq_of_lt hr]
      have h2W : rr = (rr + llp * W) % W := by
        rw [Nat.add_mul_mod_self_right, Nat.mod_eq_of_lt hrr]
      rw [h1W, h2W, heq]
    · have h1d : lp = (r + lp * W) / W := by
        rw [Nat.add_mul_div_right _ _ (by omega : 0 < W),
          Nat.div_eq_of_lt hr, Nat.zero_add]
      have h2d : llp = (rr + llp * W) / W := by
        rw [Nat.add_mul_div_right _ _ (by omega : 0 < W),
          Nat.div_eq_of_lt hrr, Nat.zero_add]
      rw [h1d, h2d, heq]

/-- C5 witness: one node type of four nodes under two workers with one local
partition each; all four triples are emitted exactly once and the counts sum
to four. -/
theorem C5_node_synthesis_witness :
    (∀ t ∈ [(⟨0, 10, 0, 4⟩ : NodeTypeInfo)], ∀ i, i < t.count →
        (fun g => g % 2) (t.gnidStart + i) < 2 * 1) ∧
      ((⟨11, 1, 0⟩ : NodeRecord) ∈
          genNodeData 2 [(⟨0, 10, 0, 4⟩ : NodeTypeInfo)] (fun g => g % 2) 1 0) ∧
      nodeShuffleTotal 2 1 [(⟨0, 10, 0, 4⟩ : NodeTypeInfo)] (fun g => g % 2) =
        ([(⟨0, 10, 0, 4⟩ : NodeTypeInfo)].map (fun t => t.count)).sum :=
  ⟨by decide,
    (C5_node_synthesis 2 1 [(⟨0, 10, 0, 4⟩ : NodeTypeInfo)] (fun g => g % 2)
        (by decide)).2.1 1 0 ⟨0, 10, 0, 4⟩ (by decide) 1 (by decide) (by decide),
    (C5_node_synthesis 2 1 [(⟨0, 10, 0, 4⟩ : NodeTypeInfo)] (fun g => g % 2)
        (by decide)).2.2.2⟩

/-- Per-rank feature byte sizes computed inside `_get_num_chunks`:
`shapes = np.split(shapes, world_size); sizes = [np.prod(s) * dtype_sz for s in shapes]`,
where `shapes` is the all-gathered concatenation of the per-rank tensor
shapes (one equal-length block per rank). -/
def featSizes (allDims : List Nat) (W dsz : Nat) : List Nat :=
  (List.range W).map (fun rnk =>
    (((allDims.drop (rnk * (allDims.length / W))).take (allDims.length / W)).foldr
        (· * ·) 1) * dsz)

/-- Chunk count computed by `_get_num_chunks` (after its assert): return `1`
when `msg_size == 0`, otherwise
`np.ceil((1 if amax(sizes) < MB else amax(sizes) // MB) / msg_size)` with
`msg_size` expressed in MiB. -/
def getNumChunks (allDims : List Nat) (W dsz msg : Nat) : Nat :=
  if msg = 0 then 1
  else
    cdiv (if (featSizes allDims W dsz).foldr max 0 < MB then 1
          else (featSizes allDims W dsz).foldr max 0 / MB) msg

/-- `_get_num_chunks` including its `assert shapes[0] != 0`: `none` models the
`AssertionError` raised when the gathered leading dimension of rank 0 is 0. -/
def getNumChunksChecked (allDims : List Nat) (W dsz msg : Nat) : Option Nat :=
  if allDims.headD 0 = 0 then none
  else some (getNumChunks allDims W dsz msg)

/-- Rows per chunk from `exchange_features`:
`rows_per_chunk = rows if rows < num_msg_chunks else np.floor(rows/num_msg_chunks)`. -/
def rowsPerChunk (rows k : Nat) : Nat := if rows < k then rows else rows / k

/-- Recomputed chunk count `num_msg_chunks = np.ceil(rows/rows_per_chunk)`. -/
def numMsgChunks (rows k : Nat) : Nat := cdiv rows (rowsPerChunk rows k)

/-- Rows-per-chunk formula exactly as the claim states it:
`max(1, ⌊R / ⌈max_peer_bytes / MSG_CAP⌉⌋)` with `MSG_CAP` in bytes. -/
def claimedRowsPerChunk (R maxPeerBytes msgCapBytes : Nat) : Nat :=
  max 1 (R / ceilNat maxPeerBytes msgCapBytes)

theorem cdiv_pos_of_pos (n c : Nat) (hn : 0 < n) : 0 < cdiv n c := by
  unfold cdiv
  by_cases h : n % c = 0
  · rw [if_pos h]
    rcases Nat.eq_zero_or_pos c with hc0 | hc1
    · subst hc0
      rw [Nat.mod_zero] at h
      omega
    · have hdvd : c ∣ n := Nat.dvd_of_mod_eq_zero h
      have hle : c ≤ n := Nat.le_of_dvd hn hdvd
      have := Nat.div_pos hle hc1
      omega
  · rw [if_neg h]
    exact Nat.succ_pos _

theorem getNumChunks_pos (allDims : List Nat) (W dsz msg : Nat) :
    0 < getNumChunks allDims W dsz msg := by
  unfold getNumChunks
  by_cases hmsg : msg = 0
  · rw [if_pos hmsg]
    omega
  · rw [if_neg hmsg]
    apply cdiv_pos_of_pos
    by_cases hmx : (featSizes allDims W dsz).foldr max 0 < MB
    · rw [if_pos hmx]
      omega
    · rw [if_neg hmx]
      have hMB : 0 < MB := by
        unfold MB
        omega
      exact Nat.div_pos (by omega) hMB

theorem rowsPerChunk_pos (R k : Nat) (hR : 0 < R) (hk : 0 < k) :
    0 < rowsPerChunk R k := by
  unfold rowsPerChunk
  by_cases h : R < k
  · rw [if_pos h]
    exact hR
  · rw [if_neg h]
    exact Nat.div_pos (by omega) hk

/-- C6 counterexample.  Two rows of 512 MiB each (`dtype` size 1, one worker),
message cap 1 MiB: the code computes 1024 peer chunks, then since
`rows = 2 < 1024` it sends all 2 rows in a single chunk of 1 GiB, whereas the
claimed formula `max(1, ⌊R / ⌈max_peer_bytes / MSG_CAP⌉⌋)` yields 1 row per
chunk; the single outgoing message also exceeds the 1 MiB cap. -/
theorem C6_counterexample :
    rowsPerChunk 2 (getNumChunks [2, 536870912] 1 1 1) = 2 ∧
      claimedRowsPerChunk 2 (2 * 536870912 * 1) (1 * MB) = 1 ∧
      rowsPerChunk 2 (getNumChunks [2, 536870912] 1 1 1) ≠
        claimedRowsPerChunk 2 (2 * 536870912 * 1) (1 * MB) ∧
      rowsPerChunk 2 (getNumChunks [2, 536870912] 1 1 1) * 536870912 * 1 > 1 * MB := by
  decide

/-- C6 (amended).  For a positive per-message cap the feature chunk plan uses
`rows_per_chunk = R` when `R < k` and `⌊R / k⌋` otherwise, where
`k = _get_num_chunks(...)` is always positive; the resulting
`⌈R / rows_per_chunk⌉` chunk slices cover the local feature rows exactly
once (rows may therefore exceed the cap only when `R < k`). -/
theorem C6_feature_chunking (allDims : List Nat) (W dsz msg : Nat)
    (rows : List (List Nat)) (hrows : 0 < rows.length) :
    0 < getNumChunks allDims W dsz msg ∧
      (List.range (numMsgChunks rows.length (getNumChunks allDims W dsz msg))).flatMap
          (fun c =>
            chunkSlice rows (rowsPerChunk rows.length (getNumChunks allDims W dsz msg)) c) =
        rows := by
  refine ⟨getNumChunks_pos allDims W dsz msg, ?_⟩
  apply chunkSlice_join
  have hrpc : 0 < rowsPerChunk rows.length (getNumChunks allDims W dsz msg) :=
    rowsPerChunk_pos _ _ hrows (getNumChunks_pos allDims W dsz msg)
  have := cdiv_mul_le rows.length
    (rowsPerChunk rows.length (getNumChunks allDims W dsz msg)) hrpc
  unfold numMsgChunks
  rw [Nat.mul_comm]
  exact this

/-- C6 witness: three one-element rows, cap 1 MiB, tiny tensors: one chunk
covering all three rows. -/
theorem C6_feature_chunking_witness :
    0 < ([[1], [2], [3]] : List (List Nat)).length ∧
      0 < getNumChunks [3, 1, 3, 1] 2 8 1 ∧
      (List.range (numMsgChunks 3 (getNumChunks [3, 1, 3, 1] 2 8 1))).flatMap
          (fun c => chunkSlice ([[1], [2], [3]] : List (List Nat))
            (rowsPerChunk 3 (getNumChunks [3, 1, 3, 1] 2 8 1)) c) =
        [[1], [2], [3]] :=
  ⟨by decide,
    (C6_feature_chunking [3, 1, 3, 1] 2 8 1 [[1], [2], [3]] (by decide)).1,
    (C6_feature_chunking [3, 1, 3, 1] 2 8 1 [[1], [2], [3]] (by decide)).2⟩

/-- C10.  When the configured maximum feature-message size is 0 (the default
of `--feature-mesg-size`), `_get_num_chunks` returns exactly 1 whenever its
assert admits the input, and the rows-per-chunk computation then covers the
whole tensor in a single chunk: `rows_per_chunk = R` and the final chunk
count is 1, regardless of the tensor byte size. -/
theorem C10_zero_msg_size (allDims : List Nat) (W dsz R : Nat)
    (hhead : allDims.headD 0 ≠ 0) (hR : 0 < R) :
    getNumChunksChecked allDims W dsz 0 = some (getNumChunks allDims W dsz 0) ∧
      getNumChunks allDims W dsz 0 = 1 ∧
      rowsPerChunk R 1 = R ∧
      numMsgChunks R 1 = 1 := by
  have h1 : getNumChunks allDims W dsz 0 = 1 := by
    unfold getNumChunks
    rw [if_pos rfl]
  have h2 : rowsPerChunk R 1 = R := by
    unfold rowsPerChunk
    rw [if_neg (by omega : ¬ R < 1), Nat.div_one]
  refine ⟨?_, h1, h2, ?_⟩
  · unfold getNumChunksChecked
    rw [if_neg hhead]
  · unfold numMsgChunks
    rw [h2]
    unfold cdiv
    rw [Nat.mod_self, if_pos rfl, Nat.div_self hR]

/-- C10 witness: a rank with a `(7, 5)` tensor of 4-byte elements and cap 0. -/
theorem C10_zero_msg_size_witness :
    ([7, 5, 7, 5] : List Nat).headD 0 ≠ 0 ∧ 0 < 7 ∧
      getNumChunksChecked [7, 5, 7, 5] 2 4 0 = some (getNumChunks [7, 5, 7, 5] 2 4 0) ∧
      getNumChunks [7, 5, 7, 5] 2 4 0 = 1 ∧
      rowsPerChunk 7 1 = 7 ∧
      numMsgChunks 7 1 = 1 :=
  ⟨by decide, by decide,
    (C10_zero_msg_size [7, 5, 7, 5] 2 4 7 (by decide) (by decide)).1,
    (C10_zero_msg_size [7, 5, 7, 5] 2 4 7 (by decide) (by decide)).2.1,
    (C10_zero_msg_size [7, 5, 7, 5] 2 4 7 (by decide) (by decide)).2.2.1,
    (C10_zero_msg_size [7, 5, 7, 5] 2 4 7 (by decide) (by decide)).2.2.2⟩

/-- Shape-and-dtype report a worker contributes to the feature negotiation:
its tensor shape (`featdata_key.shape`) and the integer dtype tag
(`DATA_TYPE_ID[featdata_key.dtype]`); `none` models a worker whose
`featdata_key` is `None`, which reports `feat_dim_len = 0`. -/
structure FeatMeta where
  dims : List Nat
  dtypeTag : Nat
deriving DecidableEq

/-- Outcome of the per-feature shape negotiation in `exchange_feature`. -/
inductive NegotiationOutcome where
  | skip
  | proceed
  | shapeMismatch
deriving DecidableEq

/-- The gathered `all_lens` vector: each rank reports `len(featdata_key.shape)`
or 0 when it has no feature data. -/
def negotiationLens (metas : List (Option FeatMeta)) : List Nat :=
  metas.map (fun m => match m with
    | none => 0
    | some fm => fm.dims.length)

/-- Shape negotiation of `exchange_feature`: return early (skip) when
`all_lens[0] <= 0`; otherwise assert, for every rank `idx >= 1`, that
`all_lens[idx] == 0 or all_lens[idx] == all_lens[0]`.  The gathered dtype
tags (`all_dims_dtype`) are exchanged afterwards but never checked for
consistency. -/
def featureNegotiation (metas : List (Option FeatMeta)) : NegotiationOutcome :=
  if (negotiationLens metas).headD 0 = 0 then .skip
  else if ((negotiationLens metas).drop 1).all
      (fun l => l == 0 || l == (negotiationLens metas).headD 0) then .proceed
  else .shapeMismatch

/-- C9 counterexample.  Two workers both holding data report identical ranks
but different element dtypes (tags 3 and 7): the negotiation proceeds with no
error, although the claim requires a fatal ShapeMismatch on any rank *or
dtype* inconsistency.  Additionally, when worker 0 reports no data, two other
workers with inconsistent ranks (2 versus 1) are silently skipped rather
than failed. -/
theorem C9_counterexample :
    featureNegotiation [some ⟨[4, 2], 3⟩, some ⟨[4, 2], 7⟩] = .proceed ∧
      (3 : Nat) ≠ 7 ∧
      featureNegotiation [none, some ⟨[4, 2], 3⟩, some ⟨[4], 3⟩] = .skip := by
  decide

/-- C9 (amended).  The negotiation checks only tensor *ranks*, and only
against worker 0: when worker 0 reports data, the exchange fails (before any
feature payload is built or sent) exactly when some later worker reports a
nonzero rank different from worker 0's rank — workers reporting no data are
exempt, and dtype tags play no role; when worker 0 reports no data the
feature is skipped without any check. -/
theorem C9_shape_negotiation (metas : List (Option FeatMeta)) :
    ((negotiationLens metas).headD 0 = 0 → featureNegotiation metas = .skip) ∧
      ((negotiationLens metas).headD 0 ≠ 0 →
        (featureNegotiation metas = .shapeMismatch ↔
          ∃ l ∈ (negotiationLens metas).drop 1,
            l ≠ 0 ∧ l ≠ (negotiationLens metas).headD 0)) := by
  constructor
  · intro h0
    unfold featureNegotiation
    rw [if_pos h0]
  · intro h0
    unfold featureNegotiation
    rw [if_neg h0]
    by_cases hall : ((negotiationLens metas).drop 1).all
        (fun l => l == 0 || l == (negotiationLens metas).headD 0)
    · rw [if_pos hall]
      constructor
      · intro hcontr
        cases hcontr
      · intro hex
        obtain ⟨l, hl, hne0, hnehead⟩ := hex
        have := (List.all_eq_true.mp hall) l hl
        rw [Bool.or_eq_true, beq_iff_eq, beq_iff_eq] at this
        rcases this with h | h
        · exact absurd h hne0
        · exact absurd h hnehead
    · rw [if_neg hall]
      constructor
      · intro _
        rw [List.all_eq_true] at hall
        push_neg at hall
        obtain ⟨l, hl, hbad⟩ := hall
        refine ⟨l, hl, ?_, ?_⟩
        · intro h0l
          apply hbad
          rw [Bool.or_eq_true, beq_iff_eq]
          exact Or.inl h0l
        · intro hlh
          apply hbad
          rw [Bool.or_eq_true, beq_iff_eq, beq_iff_eq]
          exact Or.inr hlh
      · intro _
        rfl

/-- C9 witness: a skip instance and a genuine rank mismatch instance. -/
theorem C9_shape_negotiation_witness :
    (negotiationLens [none, some ⟨[4, 2], 3⟩]).headD 0 = 0 ∧
      featureNegotiation [none, some ⟨[4, 2], 3⟩] = .skip ∧
      ((negotiationLens [some ⟨[4, 2], 3⟩, some ⟨[4, 2, 2], 3⟩]).headD 0 ≠ 0 ∧
        (featureNegotiation [some ⟨[4, 2], 3⟩, some ⟨[4, 2, 2], 3⟩] = .shapeMismatch ↔
          ∃ l ∈ (negotiationLens [some ⟨[4, 2], 3⟩, some ⟨[4, 2, 2], 3⟩]).drop 1,
            l ≠ 0 ∧ l ≠ (negotiationLens [some ⟨[4, 2], 3⟩, some ⟨[4, 2, 2], 3⟩]).headD 0)) :=
  ⟨by decide,
    (C9_shape_negotiation [none, some ⟨[4, 2], 3⟩]).1 (by decide),
    by decide,
    (C9_shape_negotiation [some ⟨[4, 2], 3⟩, some ⟨[4, 2, 2], 3⟩]).2 (by decide)⟩

/-- Raw per-worker feature input to `exchange_features` for one
`(type, feature)` pair: the worker's global-id range start and its feature
rows (row `j` belongs to global id `gidStart + j`), or `none` when
`feature_data[feat_key]` is `None` for this worker. -/
structure FeatInput where
  gidStart : Nat
  rows : List Nat
  dim : Nat
deriving DecidableEq

/-- The all-gathered `all_dims` vector of `exchange_features`: each worker
contributes `featdata_key.shape`, or the literal `[0]` when it holds no
feature data (`feat_dims = [0]`). -/
def featuresAllDims (ws : List (Option FeatInput)) : List Nat :=
  ws.flatMap (fun w => match w with
    | none => [0]
    | some i => [i.rows.length, i.dim])

/-- The skip gate of `exchange_features`: the feature is exchanged only when
`all_dims[0] > 0`, i.e. only when *worker 0* reports a nonzero leading
dimension (the attached log message claims the branch means that no process
has any data). -/
def featuresGate (ws : List (Option FeatInput)) : Bool :=
  0 < (featuresAllDims ws).headD 0

/-- Global ids whose feature rows worker `r` receives for local partition
`lp`, in a single-chunk exchange (`feat_mesg_size = 0`, hence one chunk, cf.
C10): nothing at all when the gate skips the feature, otherwise each sender
contributes the ids of its range owned by partition `r + lp * W`, in
sender-rank order. -/
def featureRecvGids (W : Nat) (ws : List (Option FeatInput)) (part : Nat → Nat)
    (r lp : Nat) : List Nat :=
  if featuresGate ws then
    ws.flatMap (fun w => match w with
      | none => []
      | some i =>
          ((List.range i.rows.length).map (fun j => i.gidStart + j)).filter
            (fun g => part g == r + lp * W))
  else []

/-- Pre-shuffle row total of the feature across the cluster. -/
def featurePreTotal (ws : List (Option FeatInput)) : Nat :=
  (ws.map (fun w => match w with
    | none => 0
    | some i => i.rows.length)).sum

/-- C4 failing input.  Worker 0 holds no rows of the feature and worker 1
holds all three rows: the gathered `all_dims` is `[0, 3, 2]`, the gate
`all_dims[0] <= 0` fires on *every* worker (its log message claims no process
has data), the feature is skipped cluster-wide, and zero of the three rows
are delivered — the post-shuffle count 0 differs from the pre-shuffle
count 3, violating row conservation. -/
theorem C4_worker0_empty_drops_rows :
    featuresGate [none, some ⟨100, [7, 8, 9], 2⟩] = false ∧
      sumOver 2 (fun r => sumOver 1 (fun lp =>
        (featureRecvGids 2 [none, some ⟨100, [7, 8, 9], 2⟩]
          (fun g => g % 2) r lp).length)) = 0 ∧
      featurePreTotal [none, some ⟨100, [7, 8, 9], 2⟩] = 3 := by
  decide

/-- Order used to model `np.argsort key` deterministically: compare key
values, break ties by original position; sorting `range key.length` by this
order yields a stable argsort of `key`. -/
def argRel (key : List Nat) (i j : Nat) : Prop :=
  key.getD i 0 < key.getD j 0 ∨ (key.getD i 0 = key.getD j 0 ∧ i ≤ j)

instance argRelDecidable (key : List Nat) : DecidableRel (argRel key) := fun i j =>
  inferInstanceAs (Decidable (_ ∨ _))

instance argRelTotal (key : List Nat) : IsTotal Nat (argRel key) := by
  constructor
  intro i j
  unfold argRel
  rcases Nat.lt_trichotomy (key.getD i 0) (key.getD j 0) with h | h | h
  · exact Or.inl (Or.inl h)
  · rcases Nat.le_total i j with hij | hji
    · exact Or.inl (Or.inr ⟨h, hij⟩)
    · exact Or.inr (Or.inr ⟨h.symm, hji⟩)
  · exact Or.inr (Or.inl h)

instance argRelTrans (key : List Nat) : IsTrans Nat (argRel key) := by
  constructor
  intro i j m hij hjm
  unfold argRel at hij hjm ⊢
  omega

/-- `np.argsort` over one column, modelled as a stable argsort: the indices
`0, ..., key.length - 1` sorted by key value with ties kept in position
order. -/
def argsortL (key : List Nat) : List Nat :=
  (List.range key.length).insertionSort (argRel key)

theorem argsortL_perm (key : List Nat) :
    List.Perm (argsortL key) (List.range key.length) :=
  List.perm_insertionSort (argRel key) (List.range key.length)

theorem argsortL_sorted (key : List Nat) :
    List.Pairwise (argRel key) (argsortL key) :=
  List.sorted_insertionSort (argRel key) (List.range key.length)

theorem map_getD_range {α : Type} (l : List α) (d : α) :
    (List.range l.length).map (fun i => l.getD i d) = l := by
  apply List.ext_getElem
  · rw [List.length_map, List.length_range]
  · intro i h1 h2
    rw [List.getElem_map, List.getElem_range, List.getD_eq_getElem l d h2]

/-- Applying an argsort of the key column back to the key column sorts it. -/
theorem argsortL_map_getD (key : List Nat) :
    (argsortL key).map (fun i => key.getD i 0) = key.insertionSort (· ≤ ·) := by
  apply List.eq_of_perm_of_sorted
    (r := fun a b : Nat => a ≤ b)
  · have h1 : List.Perm ((argsortL key).map (fun i => key.getD i 0)) key := by
      have := (argsortL_perm key).map (fun i => key.getD i 0)
      rw [map_getD_range key 0] at this
      exact this
    exact h1.trans (List.perm_insertionSort _ key).symm
  · apply (argsortL_sorted key).map (fun i => key.getD i 0)
    intro a b hab
    unfold argRel at hab
    show key.getD a 0 ≤ key.getD b 0
    omega
  · exact List.sorted_insertionSort _ key

/-- `reorder_data` on one local partition: argsort the key column
(`sorted_idx = data[key + "/" + local_part_id].argsort()`) and replace every
column of that local partition by `v[sorted_idx]`. -/
def reorderData (key : List Nat) (cols : List (List Nat)) :
    List Nat × List (List Nat) :=
  ((argsortL key).map (fun i => key.getD i 0),
    cols.map (fun col => (argsortL key).map (fun i => col.getD i 0)))

/-- C8 counterexample.  Two same-type edges with per-type edge ids 5 and 3
arrive at worker 0 (local partition 0) from senders 0 and 1 in that order;
`reorder_data` keyed on the `etype_id` column leaves the order unchanged,
so the records are *not* sorted by `(etype_id, type_eid)`: the `type_eid`
column stays `[5, 3]`. -/
theorem C8_counterexample :
    recvEdges 2 (fun s => [[⟨0, 0, 5, 7, 10⟩], [⟨1, 0, 3, 7, 11⟩]].getD s [])
        (fun _ => 0) 0 0 = [⟨0, 0, 5, 7, 10⟩, ⟨1, 0, 3, 7, 11⟩] ∧
      reorderData [7, 7] [[5, 3]] = ([7, 7], [[5, 3]]) ∧
      ¬ List.Sorted (fun a b : Nat × Nat => a.1 < b.1 ∨ (a.1 = b.1 ∧ a.2 ≤ b.2))
          [(7, 5), (7, 3)] := by
  decide

/-- C8 (amended).  The reorder pass sorts each local partition by the type-id
column alone — the reordered key column is ascending and is a permutation of
the original — and applies one common permutation of `0, ..., n-1` (the
argsort of the key column) to every column of that local partition; records
of equal type id keep their prior relative order, which need not put the
per-type ids in ascending order. -/
theorem C8_reorder_by_type_id (key : List Nat) (cols : List (List Nat)) :
    List.Sorted (fun a b : Nat => a ≤ b) (reorderData key cols).1 ∧
      List.Perm (reorderData key cols).1 key ∧
      (∃ p : List Nat, List.Perm p (List.range key.length) ∧
        (reorderData key cols).1 = p.map (fun i => key.getD i 0) ∧
        (reorderData key cols).2 = cols.map (fun col => p.map (fun i => col.getD i 0))) := by
  refine ⟨?_, ?_, argsortL key, argsortL_perm key, rfl, rfl⟩
  · unfold reorderData
    rw [argsortL_map_getD]
    exact List.sorted_insertionSort _ key
  · unfold reorderData
    have := (argsortL_perm key).map (fun i => key.getD i 0)
    rw [map_getD_range key 0] at this
    exact this

/-- Ascending sort of a list of naturals (`np.sort` order). -/
def sortNat (l : List Nat) : List Nat := l.insertionSort (· ≤ ·)

/-- Result column of `np.intersect1d(ar1, ar2)`: the ascending list of the
distinct values occurring in both arrays. -/
def intersectSorted (ar1 ar2 : List Nat) : List Nat :=
  sortNat ((ar1.filter (fun a => ar2.contains a)).dedup)

/-- Final feature reorder pass of `gen_dist_partitions`: intersect the node
(edge) table's global-id column with the received global-id column
(`np.intersect1d(..., return_indices=True)`), read the shuffle-global ids at
the matched table positions (`idx1`, the first-occurrence indices into the
table), argsort those shuffle ids, and index the received feature rows with
the resulting permutation. -/
def reorderFeat (nodeGnids nodeShuffle rcvdGnids feats : List Nat) : List Nat :=
  (argsortL (((intersectSorted nodeGnids rcvdGnids).map
      (fun v => List.indexOf v nodeGnids)).map (fun i => nodeShuffle.getD i 0))).map
    (fun j => feats.getD j 0)

/-- The claim's target table, written from the spec: sort the shuffle ids of
the received nodes ascending (post-renumber order); row `i` is the received
feature row — located by the global id of the node carrying the `i`-th
smallest shuffle id — of that node. -/
def specReorderFeat (nodeGnids nodeShuffle rcvdGnids feats : List Nat) : List Nat :=
  (sortNat (rcvdGnids.map (fun g => nodeShuffle.getD (List.indexOf g nodeGnids) 0))).map
    (fun s => feats.getD
      (List.indexOf (nodeGnids.getD (List.indexOf s nodeShuffle) 0) rcvdGnids) 0)

theorem intersectSorted_eq_of_subset (ar1 ar2 : List Nat)
    (hsorted : ar2.Pairwise (fun a b : Nat => a < b))
    (hsub : ∀ g ∈ ar2, g ∈ ar1) :
    intersectSorted ar1 ar2 = ar2 := by
  have hnod2 : ar2.Nodup := hsorted.imp Nat.ne_of_lt
  have hperm0 : List.Perm (intersectSorted ar1 ar2)
      ((ar1.filter (fun a => ar2.contains a)).dedup) :=
    List.perm_insertionSort _ _
  have hnodI : (intersectSorted ar1 ar2).Nodup :=
    hperm0.nodup_iff.mpr (List.nodup_dedup _)
  have hmem : ∀ a, a ∈ intersectSorted ar1 ar2 ↔ a ∈ ar2 := by
    intro a
    rw [hperm0.mem_iff, List.mem_dedup, List.mem_filter]
    constructor
    · rintro ⟨_, hc⟩
      exact List.elem_iff.mp hc
    · intro h2
      exact ⟨hsub a h2, List.elem_iff.mpr h2⟩
  have hperm : List.Perm (intersectSorted ar1 ar2) ar2 :=
    (List.perm_ext_iff_of_nodup hnodI hnod2).mpr hmem
  exact List.eq_of_perm_of_sorted hperm
    (List.sorted_insertionSort _ _) (hsorted.imp Nat.le_of_lt)

/-- C1 counterexample.  Two senders, two message chunks: the received
global-id column arrives as `[10, 20, 11, 21]` (sender 0 chunk 0, sender 1
chunk 0, sender 0 chunk 1, sender 1 chunk 1) with the feature rows travelling
alongside (`feature of node g` is `10 * g`).  The node table for the
partition is `[10, 11, 20, 21]` with shuffle ids `[0, 1, 2, 3]`.  The reorder
pass indexes the received rows with a permutation computed against the
*sorted* intersection, so row 1 ends up holding the feature of node 20
instead of node 11: the final table is not aligned with the post-renumber
node order. -/
theorem C1_counterexample :
    reorderFeat [10, 11, 20, 21] [0, 1, 2, 3] [10, 20, 11, 21] [100, 200, 110, 210] =
        [100, 200, 110, 210] ∧
      specReorderFeat [10, 11, 20, 21] [0, 1, 2, 3] [10, 20, 11, 21] [100, 200, 110, 210] =
        [100, 110, 200, 210] ∧
      reorderFeat [10, 11, 20, 21] [0, 1, 2, 3] [10, 20, 11, 21] [100, 200, 110, 210] ≠
        specReorderFeat [10, 11, 20, 21] [0, 1, 2, 3] [10, 20, 11, 21]
          [100, 200, 110, 210] := by
  decide

/-- C1 (amended).  Provided the received global-id column is strictly
ascending (as in a single-chunk exchange with sender ranges increasing in
rank order), every received id occurs in the (duplicate-free) renumbered
node/edge table, and the shuffle-id column is duplicate-free, the reorder
pass — joining the received global ids against the table via `intersect1d`
and argsorting the matched shuffle ids — produces exactly the spec's table:
row `i` holds the feature row of the entity with the `i`-th smallest shuffle
id among the received ones. -/
theorem C1_feature_alignment (nodeGnids nodeShuffle rcvdGnids feats : List Nat)
    (hshufN : nodeShuffle.Nodup)
    (hlen : nodeShuffle.length = nodeGnids.length)
    (hsorted : rcvdGnids.Pairwise (fun a b : Nat => a < b))
    (hsub : ∀ g ∈ rcvdGnids, g ∈ nodeGnids) :
    reorderFeat nodeGnids nodeShuffle rcvdGnids feats =
      specReorderFeat nodeGnids nodeShuffle rcvdGnids feats := by
  have hrcvdN : rcvdGnids.Nodup := hsorted.imp Nat.ne_of_lt
  have hcommon := intersectSorted_eq_of_subset nodeGnids rcvdGnids hsorted hsub
  unfold reorderFeat specReorderFeat
  rw [hcommon]
  have hmm : ((rcvdGnids.map (fun v => List.indexOf v nodeGnids)).map
      (fun i => nodeShuffle.getD i 0)) =
        rcvdGnids.map (fun g => nodeShuffle.getD (List.indexOf g nodeGnids) 0) := by
    rw [List.map_map]
    rfl
  rw [hmm]
  have hsort : sortNat (rcvdGnids.map (fun g => nodeShuffle.getD (List.indexOf g nodeGnids) 0)) =
      (argsortL (rcvdGnids.map (fun g => nodeShuffle.getD (List.indexOf g nodeGnids) 0))).map
        (fun i => (rcvdGnids.map (fun g => nodeShuffle.getD (List.indexOf g nodeGnids) 0)).getD i 0) := by
    rw [argsortL_map_getD]
    rfl
  rw [hsort, List.map_map]
  apply List.map_congr_left
  intro j hj
  have hjlen : j < (rcvdGnids.map
      (fun g => nodeShuffle.getD (List.indexOf g nodeGnids) 0)).length := by
    have := (argsortL_perm _).mem_iff.mp hj
    rw [List.mem_range] at this
    exact this
  have hjr : j < rcvdGnids.length := by
    rw [List.length_map] at hjlen
    exact hjlen
  simp only [Function.comp_apply]
  have hgetj : (rcvdGnids.map
      (fun g => nodeShuffle.getD (List.indexOf g nodeGnids) 0)).getD j 0 =
        nodeShuffle.getD (List.indexOf rcvdGnids[j] nodeGnids) 0 := by
    rw [List.getD_eq_getElem _ _ hjlen, List.getElem_map]
  rw [hgetj]
  have hgmem : rcvdGnids[j] ∈ nodeGnids := hsub _ (List.getElem_mem hjr)
  have ht : List.indexOf rcvdGnids[j] nodeGnids < nodeGnids.length :=
    List.indexOf_lt_length.mpr hgmem
  have htS : List.indexOf rcvdGnids[j] nodeGnids < nodeShuffle.length := by
    rw [hlen]
    exact ht
  have hsval : nodeShuffle.getD (List.indexOf rcvdGnids[j] nodeGnids) 0 =
      nodeShuffle[List.indexOf rcvdGnids[j] nodeGnids] :=
    List.getD_eq_getElem _ _ htS
  rw [hsval]
  have hidxS : List.indexOf nodeShuffle[List.indexOf rcvdGnids[j] nodeGnids] nodeShuffle =
      List.indexOf rcvdGnids[j] nodeGnids :=
    List.indexOf_getElem hshufN _ htS
  rw [hidxS]
  have hgd : nodeGnids.getD (List.indexOf rcvdGnids[j] nodeGnids) 0 =
      nodeGnids[List.indexOf rcvdGnids[j] nodeGnids] :=
    List.getD_eq_getElem _ _ ht
  rw [hgd, List.getElem_indexOf ht]
  rw [List.indexOf_getElem hrcvdN j hjr]

/-- C1 witness: received ids already ascending; the reorder pass matches the
spec table. -/
theorem C1_feature_alignment_witness :
    (([0, 1, 2, 3] : List Nat).Nodup ∧
      ([0, 1, 2, 3] : List Nat).length = ([10, 11, 20, 21] : List Nat).length ∧
      ([10, 11, 20, 21] : List Nat).Pairwise (fun a b : Nat => a < b) ∧
      (∀ g ∈ ([10, 11, 20, 21] : List Nat), g ∈ ([10, 11, 20, 21] : List Nat))) ∧
      reorderFeat [10, 11, 20, 21] [0, 1, 2, 3] [10, 11, 20, 21] [100, 110, 200, 210] =
        specReorderFeat [10, 11, 20, 21] [0, 1, 2, 3] [10, 11, 20, 21]
          [100, 110, 200, 210] :=
  ⟨⟨by decide, by decide, by decide, by decide⟩,
    C1_feature_alignment [10, 11, 20, 21] [0, 1, 2, 3] [10, 11, 20, 21]
      [100, 110, 200, 210] (by decide) (by decide) (by decide) (by decide)⟩

end DataShuffle
